import Mathlib

/-!
# Verification of the libneo4j-client value model (`src/lib/values.c`)

A shallow embedding of the tagged value representation, the validated
constructors (map, relationship, path, identity), the path accessors and the
structural-equality dispatch of `values.c`, together with proofs settling the
frozen claims about them.

Modelling conventions:
* `Value` mirrors the variant payloads of `neo4j_value_t`.  The four
  struct-backed composites (Node, Relationship, Path, generic Struct) share one
  constructor `Value.strukt` carrying the `_type`-distinguishing kind, the
  signature byte and the field array, exactly as they share the
  `struct neo4j_struct` layout and `struct_eq` dispatch in the source.
* A C `double` payload is embedded as its IEEE-754 binary64 bit pattern
  (a `Nat` below `2 ^ 64`); the C `==` on doubles is `float_eq` on bits.
* A string payload is its byte list; the stored length is the list length.
* Constructors that return the Null value and set `errno` are embedded as
  `Except ErrCode Value`, where `.error e` stands for "returned `neo4j_null`
  with error condition `e`".
* Functions whose C source can perform an out-of-range array read (which the
  source guards with `assert`) return `Option`, with `none` standing for the
  assertion-violating / undefined-behaviour case.
-/

set_option autoImplicit false

namespace Neo4j

/-- The struct-backed composite kinds: the `_type` tags that share the
`struct_eq` dispatch behaviour. -/
inductive SKind where
  | node
  | relationship
  | path
  | generic
deriving DecidableEq, Repr

/-- The semantic types (the `neo4j_type_t` offsets of `values.c`). -/
inductive Ty where
  | null
  | boolean
  | int
  | float
  | string
  | list
  | map
  | node
  | relationship
  | path
  | identity
  | strukt
deriving DecidableEq, Repr

/-- The error conditions set via `errno` by the validated constructors. -/
inductive ErrCode where
  | einval
  | invalidMapKeyType
  | invalidLabelType
  | invalidPathNodeType
  | invalidPathRelationshipType
  | invalidPathSequenceLength
  | invalidPathSequenceIdxType
  | invalidPathSequenceIdxRange
deriving DecidableEq, Repr

/-- A `neo4j_value_t`: the tagged fixed-size view.  Payload storage (bytes,
items, entries, fields) is embedded by value since the claims are about the
pointed-to contents, never about pointer identity. -/
inductive Value where
  | null : Value
  | boolean : Bool → Value
  | int : Int → Value
  | float : Nat → Value
  | string : List Nat → Value
  | list : List Value → Value
  | map : List (Value × Value) → Value
  | identity : Int → Value
  | strukt : SKind → Nat → List Value → Value

/-- The function `neo4j_type`: the semantic type of a value. -/
def neo4j_type : Value → Ty
  | .null => .null
  | .boolean _ => .boolean
  | .int _ => .int
  | .float _ => .float
  | .string _ => .string
  | .list _ => .list
  | .map _ => .map
  | .identity _ => .identity
  | .strukt k _ _ =>
      match k with
      | .node => .node
      | .relationship => .relationship
      | .path => .path
      | .generic => .strukt

/-- The function `neo4j_is_null`: type-tag test against `NEO4J_NULL`. -/
def neo4j_is_null (v : Value) : Bool :=
  neo4j_type v == Ty.null

/-- Signature byte of Node structs (value as in the library header; the exact
number is immaterial to every claim). -/
def NEO4J_NODE_SIGNATURE : Nat := 0x4E

/-- Signature byte of Relationship structs. -/
def NEO4J_REL_SIGNATURE : Nat := 0x52

/-- Signature byte of Path structs. -/
def NEO4J_PATH_SIGNATURE : Nat := 0x50

/-- The constructor `neo4j_bool`. -/
def neo4j_bool (b : Bool) : Value := .boolean b

/-- The constructor `neo4j_int` (the clamping branch of the source is dead on a platform where
`long long` is 64-bit, so the input is the stored 64-bit payload). -/
def neo4j_int (i : Int) : Value := .int i

/-- The constructor `neo4j_float`, on the bit pattern of the `double` argument. -/
def neo4j_float (bits : Nat) : Value := .float bits

/-- The constructor `neo4j_ustring`: byte pointer plus length, no validation. -/
def neo4j_ustring (bytes : List Nat) : Value := .string bytes

/-- The constructor `neo4j_list`: items plus length, no element validation. -/
def neo4j_list (items : List Value) : Value := .list items

/-- The constructor `neo4j_identity`: Null for a negative input, otherwise an Identity-typed
value carrying the integer (no error condition is set). -/
def neo4j_identity (i : Int) : Value :=
  if i < 0 then .null else .identity i

/-- The accessor `neo4j_list_length` (0 on a non-List value, per `REQUIRE`). -/
def neo4j_list_length : Value → Nat
  | .list items => items.length
  | _ => 0

/-- The accessor `neo4j_list_get`: Null on a non-List value (`REQUIRE`), Null when
`length <= index`, else `items[index]`. -/
def neo4j_list_get (value : Value) (index : Nat) : Value :=
  match value with
  | .list items =>
      if items.length ≤ index then .null else items.getD index .null
  | _ => .null

/-- The constructor `neo4j_map`: every entry key must be a String, otherwise the constructor
aborts with `NEO4J_INVALID_MAP_KEY_TYPE` (the source scans entries in order
and bails at the first offender; any offender yields the same result). -/
def neo4j_map (entries : List (Value × Value)) : Except ErrCode Value :=
  if entries.all (fun e => neo4j_type e.1 == Ty.string) then
    .ok (.map entries)
  else
    .error .invalidMapKeyType

/-- The accessor `neo4j_map_size` (0 on a non-Map value, per `REQUIRE`). -/
def neo4j_map_size : Value → Nat
  | .map entries => entries.length
  | _ => 0

/-- The constructor `neo4j_relationship` over the 5-field (bound) layout.  The second
null-allowance test reads `fields[1]`, exactly as the source does
(`values.c:680`: `neo4j_type(fields[2]) != NEO4J_IDENTITY &&
!neo4j_is_null(fields[1])`). -/
def neo4j_relationship (f0 f1 f2 f3 f4 : Value) : Except ErrCode Value :=
  if neo4j_type f0 != Ty.identity ||
      (neo4j_type f1 != Ty.identity && !neo4j_is_null f1) ||
      (neo4j_type f2 != Ty.identity && !neo4j_is_null f1) ||
      neo4j_type f3 != Ty.string ||
      neo4j_type f4 != Ty.map then
    .error .einval
  else
    .ok (.strukt .relationship NEO4J_REL_SIGNATURE [f0, f1, f2, f3, f4])

/-- The per-pair scan of `neo4j_path` over the sequence list: for each pair
both elements must be Ints, then the relationship index must be nonzero with
magnitude at most `rlen`, then the node index must be in `[0, nlen)`.  The
caller has already checked that the length is even. -/
def checkSeq (rlen nlen : Nat) : List Value → Option ErrCode
  | r :: n :: rest =>
      match r, n with
      | .int rv, .int nv =>
          if rv == 0 || (rlen : Int) < rv || (rlen : Int) < -rv then
            some .invalidPathSequenceIdxRange
          else if nv < 0 || (nlen : Int) ≤ nv then
            some .invalidPathSequenceIdxRange
          else
            checkSeq rlen nlen rest
      | _, _ => some .invalidPathSequenceIdxType
  | _ => none

/-- The constructor `neo4j_path`: the three fields must be Lists (`EINVAL`), the nodes all
Node-typed, the relationships all Relationship-typed, the sequence of even
length, and every sequence pair must pass `checkSeq`. -/
def neo4j_path (f0 f1 f2 : Value) : Except ErrCode Value :=
  match f0, f1, f2 with
  | .list nodes, .list rels, .list seq =>
      if !(nodes.all fun x => neo4j_type x == Ty.node) then
        .error .invalidPathNodeType
      else if !(rels.all fun x => neo4j_type x == Ty.relationship) then
        .error .invalidPathRelationshipType
      else if seq.length % 2 != 0 then
        .error .invalidPathSequenceLength
      else
        match checkSeq rels.length nodes.length seq with
        | some e => .error e
        | none =>
            .ok (.strukt .path NEO4J_PATH_SIGNATURE
              [.list nodes, .list rels, .list seq])
  | _, _, _ => .error .einval

/-- The accessor `neo4j_path_length`: half the sequence length (0 on a non-Path value).
The field read `v->fields[2]` is in range for every constructed path. -/
def neo4j_path_length : Value → Nat
  | .strukt .path _ fields => neo4j_list_length (fields.getD 2 .null) / 2
  | _ => 0

/-- The accessor `neo4j_path_get_node`.  Here `none` models an out-of-range array read, which
the source only guards with `assert`. -/
def neo4j_path_get_node (value : Value) (hops : Nat) : Option Value :=
  match value with
  | .strukt .path _ fields =>
      match fields.getD 0 .null, fields.getD 2 .null with
      | .list nodes, .list seq =>
          if hops > seq.length / 2 then
            some .null
          else if hops == 0 then
            nodes[0]?
          else
            match seq[(hops - 1) * 2 + 1]? with
            | some (.int nodeIdx) =>
                if nodeIdx < 0 then none else nodes[nodeIdx.toNat]?
            | _ => none
      | _, _ => none
  | _ => some .null

/-- The accessor `neo4j_path_get_relationship`.  The result pairs the returned value with
the direction written through `*forward` (`none` when the source returns
without writing it); an overall `none` models an out-of-range array read,
which the source only guards with `assert`.  The subtraction in
`llabs(value) - 1` never underflows on indices admitted by path
construction (they are nonzero). -/
def neo4j_path_get_relationship (value : Value) (hops : Nat) :
    Option (Value × Option Bool) :=
  match value with
  | .strukt .path _ fields =>
      match fields.getD 1 .null, fields.getD 2 .null with
      | .list rels, .list seq =>
          if hops > seq.length / 2 then
            some (.null, none)
          else
            match seq[hops * 2]? with
            | some (.int relIdx) =>
                match rels[relIdx.natAbs - 1]? with
                | some r => some (r, some (decide (0 < relIdx)))
                | none => none
            | _ => none
      | _, _ => none
  | _ => some (.null, none)

/-- IEEE-754 binary64: NaN iff the exponent field is all ones and the
mantissa is nonzero. -/
def f64_isNaN (bits : Nat) : Bool :=
  bits / 2 ^ 52 % 2 ^ 11 == 2047 && bits % 2 ^ 52 != 0

/-- IEEE-754 binary64: a zero (of either sign) iff all bits below the sign
bit are clear. -/
def f64_isZero (bits : Nat) : Bool :=
  bits % 2 ^ 63 == 0

/-- The comparator `float_eq`: the C `==` on two doubles, at the bit-pattern level — never
true on a NaN operand, and `+0.0 == -0.0`; all other values compare equal
exactly when their bit patterns coincide. -/
def float_eq (a b : Nat) : Bool :=
  !f64_isNaN a && !f64_isNaN b && (a == b || (f64_isZero a && f64_isZero b))

/-- Embeds `strncmp(a, b, n) == 0` where `n` is the (common) length of the two byte
lists: compare byte by byte, stopping early at a NUL byte. -/
def strncmp0 : List Nat → List Nat → Bool
  | x :: xs, y :: ys =>
      if x != y then false else if x == 0 then true else strncmp0 xs ys
  | _, _ => true

/-- The comparator `string_eq`: equal length, then `strncmp` over that length. -/
def string_eq (s t : List Nat) : Bool :=
  s.length == t.length && strncmp0 s t

mutual

/-- The dispatcher `neo4j_eq`: false across differing semantic types, otherwise the
per-type comparator (`null_eq`, `bool_eq`, `int_eq`, `float_eq`,
`string_eq`, `list_eq`, `map_eq`, `struct_eq`; Identity dispatches to
`int_eq`).  Constructor mismatches below — including mismatched struct
kinds — are exactly the `neo4j_type(value1) != neo4j_type(value2)` case. -/
def neo4j_eq : Value → Value → Bool
  | .null, .null => true
  | .boolean a, .boolean b => a == b
  | .int a, .int b => a == b
  | .float a, .float b => float_eq a b
  | .string a, .string b => string_eq a b
  | .list a, .list b => a.length == b.length && eqList a b
  | .map a, .map b => a.length == b.length && eqEntries a b
  | .identity a, .identity b => a == b
  | .strukt k1 s1 f1, .strukt k2 s2 f2 =>
      k1 == k2 && (s1 == s2 && (f1.length == f2.length && eqList f1 f2))
  | _, _ => false
termination_by a _ => (sizeOf a, 0)

/-- The pointwise loop shared by `list_eq` and `struct_eq` (the caller has
already compared lengths). -/
def eqList : List Value → List Value → Bool
  | x :: xs, y :: ys => neo4j_eq x y && eqList xs ys
  | _, _ => true
termination_by xs _ => (sizeOf xs, 0)

/-- The outer loop of `map_eq`: every entry of the first map must find a
match in the second (the caller has already compared entry counts). -/
def eqEntries : List (Value × Value) → List (Value × Value) → Bool
  | [], _ => true
  | e :: es, fs => eqFind e fs && eqEntries es fs
termination_by es _ => (sizeOf es, 0)

/-- The inner loop of `map_eq`: scan for the first entry with an equal key
and compare values there (no further entries are examined after the first
key match, as in the source's `break`). -/
def eqFind : Value × Value → List (Value × Value) → Bool
  | _, [] => false
  | (k, w), (k2, w2) :: fs =>
      if neo4j_eq k k2 then neo4j_eq w w2 else eqFind (k, w) fs
termination_by e fs => (sizeOf e, sizeOf fs)

end

attribute [simp] neo4j_eq eqList eqEntries eqFind

/-- A well-formed Node value, as `neo4j_node` would build it. -/
def sampleNode (i : Int) : Value :=
  .strukt .node NEO4J_NODE_SIGNATURE [.identity i, .list [], .map []]

/-- A well-formed unbound Relationship value, as `neo4j_unbound_relationship`
would build it. -/
def sampleRel (i : Int) : Value :=
  .strukt .relationship NEO4J_REL_SIGNATURE [.identity i, .string [82], .map []]

/-- The Path value `neo4j_path` builds on success from the three lists. -/
def mkPath (nodes rels seq : List Value) : Value :=
  .strukt .path NEO4J_PATH_SIGNATURE [.list nodes, .list rels, .list seq]

/-- C1: `neo4j_relationship`'s validation diverges from the claimed
"fields[2] is an Identity or Null" rule, because the null-allowance test for
`fields[2]` reads `fields[1]` (values.c:680).  A field array with
`fields[1] = Identity, fields[2] = Null` — which the claim says must
succeed — is rejected with `EINVAL`, while `fields[1] = Null` makes any
`fields[2]` (here an Int) acceptable — which the claim says must fail. -/
theorem c1_relationship_null_check :
    neo4j_relationship (neo4j_identity 1) (neo4j_identity 2) .null
        (neo4j_ustring [75]) (.map []) = .error .einval
  ∧ neo4j_relationship (neo4j_identity 1) .null (neo4j_int 7)
        (neo4j_ustring [75]) (.map [])
      = .ok (.strukt .relationship NEO4J_REL_SIGNATURE
          [neo4j_identity 1, .null, neo4j_int 7, neo4j_ustring [75], .map []]) :=
  ⟨rfl, rfl⟩

/-- C2: on the validly constructed path over nodes `[N0, N1]`, relationship
`[R0]` and sequence `[1, 1]`, `path_length` is 1, and `hops = 1` is not
rejected by the `hops > path_length` guard; the subsequent read of
`sequence[hops*2] = sequence[2]` is one past the end of the sequence list
(the source's own `assert(seq_idx < seq->length)` fails), so the claimed
in-range read does not happen. -/
theorem c2_path_get_relationship_oob :
    neo4j_path (.list [sampleNode 0, sampleNode 1]) (.list [sampleRel 0])
        (.list [.int 1, .int 1])
      = .ok (mkPath [sampleNode 0, sampleNode 1] [sampleRel 0]
          [.int 1, .int 1])
  ∧ neo4j_path_length
        (mkPath [sampleNode 0, sampleNode 1] [sampleRel 0] [.int 1, .int 1])
      = 1
  ∧ neo4j_path_get_relationship
        (mkPath [sampleNode 0, sampleNode 1] [sampleRel 0] [.int 1, .int 1]) 1
      = none :=
  ⟨by with_unfolding_all rfl, by with_unfolding_all rfl,
   by with_unfolding_all rfl⟩

/-- C6: the path round trip on nodes `[N0, N1, N2]`, relationships
`[R0, R1]` and sequence `[1, 1, -2, 2]`: construction succeeds, the length
is 2, the node accessor returns `N0`, `N1`, `N2` at hops 0, 1, 2, and the
relationship accessor returns `R0` forward at hop 0 and `R1` reversed at
hop 1. -/
theorem c6_path_round_trip (N0 N1 N2 R0 R1 : Value)
    (h0 : neo4j_type N0 = Ty.node) (h1 : neo4j_type N1 = Ty.node)
    (h2 : neo4j_type N2 = Ty.node)
    (h3 : neo4j_type R0 = Ty.relationship)
    (h4 : neo4j_type R1 = Ty.relationship) :
    neo4j_path (.list [N0, N1, N2]) (.list [R0, R1])
        (.list [.int 1, .int 1, .int (-2), .int 2])
      = .ok (mkPath [N0, N1, N2] [R0, R1] [.int 1, .int 1, .int (-2), .int 2])
  ∧ neo4j_path_length
        (mkPath [N0, N1, N2] [R0, R1] [.int 1, .int 1, .int (-2), .int 2]) = 2
  ∧ neo4j_path_get_node
        (mkPath [N0, N1, N2] [R0, R1] [.int 1, .int 1, .int (-2), .int 2]) 0
      = some N0
  ∧ neo4j_path_get_node
        (mkPath [N0, N1, N2] [R0, R1] [.int 1, .int 1, .int (-2), .int 2]) 1
      = some N1
  ∧ neo4j_path_get_node
        (mkPath [N0, N1, N2] [R0, R1] [.int 1, .int 1, .int (-2), .int 2]) 2
      = some N2
  ∧ neo4j_path_get_relationship
        (mkPath [N0, N1, N2] [R0, R1] [.int 1, .int 1, .int (-2), .int 2]) 0
      = some (R0, some true)
  ∧ neo4j_path_get_relationship
        (mkPath [N0, N1, N2] [R0, R1] [.int 1, .int 1, .int (-2), .int 2]) 1
      = some (R1, some false) := by
  refine ⟨?_, by with_unfolding_all rfl, by with_unfolding_all rfl,
    by with_unfolding_all rfl, by with_unfolding_all rfl,
    by with_unfolding_all rfl, by with_unfolding_all rfl⟩
  simp [neo4j_path, h0, h1, h2, h3, h4, checkSeq, mkPath]

/-- Witness for C6 at concrete nodes and relationships. -/
theorem c6_witness :
    neo4j_path_get_node
        (mkPath [sampleNode 0, sampleNode 1, sampleNode 2]
          [sampleRel 0, sampleRel 1] [.int 1, .int 1, .int (-2), .int 2]) 0
      = some (sampleNode 0) :=
  (c6_path_round_trip (sampleNode 0) (sampleNode 1) (sampleNode 2)
    (sampleRel 0) (sampleRel 1) rfl rfl rfl rfl rfl).2.2.1

/-- C7: `neo4j_map` fails with `InvalidMapKeyType` when some entry key is
not a String, and otherwise succeeds with a Map of size equal to the entry
count. -/
theorem c7_map_key_validation (entries : List (Value × Value)) :
    ((∃ e ∈ entries, neo4j_type e.1 ≠ Ty.string) →
        neo4j_map entries = .error .invalidMapKeyType)
  ∧ ((∀ e ∈ entries, neo4j_type e.1 = Ty.string) →
        neo4j_map entries = .ok (.map entries)
          ∧ neo4j_map_size (.map entries) = entries.length) := by
  constructor
  · rintro ⟨e, he, hne⟩
    have hall : ¬ entries.all (fun e => neo4j_type e.1 == Ty.string) = true := by
      rw [List.all_eq_true]
      intro h
      exact hne (by simpa using h e he)
    simp [neo4j_map, hall]
  · intro h
    have hall : entries.all (fun e => neo4j_type e.1 == Ty.string) = true := by
      rw [List.all_eq_true]
      intro e he
      simpa using h e he
    simp [neo4j_map, hall, neo4j_map_size]

/-- Witness for C7: a one-entry map with a String key succeeds with size 1,
and an Int key is rejected. -/
theorem c7_witness :
    neo4j_map [(.string [107], .int 1)] = .ok (.map [(.string [107], .int 1)])
  ∧ neo4j_map [(.int 1, .string [120])] = .error .invalidMapKeyType :=
  ⟨((c7_map_key_validation [(.string [107], .int 1)]).2 (by decide)).1,
   (c7_map_key_validation [(.int 1, .string [120])]).1
     ⟨(.int 1, .string [120]), by simp, by decide⟩⟩

/-- C8: `neo4j_identity` returns Null on a negative 64-bit input and
otherwise a value of semantic type Identity (not Int); `identity(-1)` is
Null, `identity(42)` is Identity-typed and compares unequal to `int(42)`. -/
theorem c8_identity_clamping (i : Int)
    (_hlo : -(2 : Int) ^ 63 ≤ i) (_hhi : i < 2 ^ 63) :
    (i < 0 → neo4j_identity i = .null)
  ∧ (0 ≤ i → neo4j_type (neo4j_identity i) = Ty.identity
        ∧ neo4j_type (neo4j_identity i) ≠ Ty.int)
  ∧ neo4j_identity (-1) = .null
  ∧ neo4j_type (neo4j_identity 42) = Ty.identity
  ∧ neo4j_eq (neo4j_identity 42) (neo4j_int 42) = false := by
  refine ⟨?_, ?_, rfl, rfl, ?_⟩
  · intro h
    simp [neo4j_identity, h]
  · intro h
    simp [neo4j_identity, Int.not_lt.mpr h, neo4j_type]
  · show neo4j_eq (.identity 42) (.int 42) = false
    simp

/-- Witness for C8 at `i = 42`. -/
theorem c8_witness :
    neo4j_eq (neo4j_identity 42) (neo4j_int 42) = false :=
  (c8_identity_clamping 42 (by norm_num) (by norm_num)).2.2.2.2

/-- C9: values of differing semantic types always compare unequal, as a
defined `false` result. -/
theorem c9_cross_type_eq (a b : Value) (h : neo4j_type a ≠ neo4j_type b) :
    neo4j_eq a b = false := by
  cases a <;> cases b <;> try simp_all [neo4j_eq, neo4j_type]
  all_goals
    (rename_i k1 _ _ k2 _ _; cases k1 <;> cases k2 <;> simp_all [neo4j_type])

/-- Witness for C9: Null against Boolean. -/
theorem c9_witness : neo4j_eq .null (.boolean true) = false :=
  c9_cross_type_eq .null (.boolean true) (by decide)

/-- C10: `neo4j_list_get` returns `items[i]` when `i < length`, the Null
value when `i ≥ length`, and the Null value on any non-List input. -/
theorem c10_list_get (xs : List Value) (i : Nat) :
    (∀ h : i < xs.length, neo4j_list_get (.list xs) i = xs.get ⟨i, h⟩)
  ∧ (xs.length ≤ i → neo4j_list_get (.list xs) i = .null)
  ∧ (∀ v : Value, neo4j_type v ≠ Ty.list → neo4j_list_get v i = .null) := by
  refine ⟨?_, ?_, ?_⟩
  · intro h
    simp [neo4j_list_get, Nat.not_le.mpr h, List.getD_eq_getElem?_getD,
      List.getElem?_eq_getElem h, List.get_eq_getElem]
  · intro h
    simp [neo4j_list_get, h]
  · intro v hv
    cases v <;> simp_all [neo4j_list_get, neo4j_type]

/-- Witness for C10 at a one-element list. -/
theorem c10_witness : neo4j_list_get (.list [.int 5]) 0 = .int 5 :=
  (c10_list_get [.int 5] 0).1 (by decide)

/-- C3 counterexample: equality is not reflexive on every value — a NaN
Float compares unequal to itself (exact IEEE `==`), and a Map constructed
with duplicate keys compares unequal to itself (the linear key scan always
finds the first duplicate, whose value differs). -/
theorem c3_counterexample :
    neo4j_eq (neo4j_float 0x7FF8000000000000)
        (neo4j_float 0x7FF8000000000000) = false
  ∧ neo4j_eq (.map [(.string [107], .int 1), (.string [107], .int 2)])
        (.map [(.string [107], .int 1), (.string [107], .int 2)]) = false := by
  constructor
  · simp [neo4j_float, float_eq, f64_isNaN]
  · simp [string_eq, strncmp0]

/-- C4 counterexample: equality is not symmetric on maps with duplicate
keys: `{k: 1, k: 1}` equals `{k: 1, j: 2}` (both entries of the first map
match the first entry of the second) but not conversely (key `j` has no
match in the first map). -/
theorem c4_counterexample :
    neo4j_eq (.map [(.string [107], .int 1), (.string [107], .int 1)])
        (.map [(.string [107], .int 1), (.string [106], .int 2)]) = true
  ∧ neo4j_eq (.map [(.string [107], .int 1), (.string [106], .int 2)])
        (.map [(.string [107], .int 1), (.string [107], .int 1)]) = false := by
  constructor <;> simp [string_eq, strncmp0]

/-- Statement vocabulary for C5: both elements of sequence pair `i` are
Ints. -/
def seqPairTypeOK (seq : List Value) (i : Nat) : Bool :=
  match seq.getD (2 * i) .null, seq.getD (2 * i + 1) .null with
  | .int _, .int _ => true
  | _, _ => false

/-- Statement vocabulary for C5: sequence pair `i` is fully valid — both
elements are Ints, the relationship index is nonzero with magnitude at most
`rlen`, and the node index lies in `[0, nlen)`. -/
def seqPairOK (rlen nlen : Nat) (seq : List Value) (i : Nat) : Bool :=
  match seq.getD (2 * i) .null, seq.getD (2 * i + 1) .null with
  | .int rv, .int nv =>
      decide (rv ≠ 0) && decide (rv.natAbs ≤ rlen) &&
      decide (0 ≤ nv) && decide (nv < (nlen : Int))
  | _, _ => false

theorem seqPairTypeOK_cons2 (r n : Value) (rest : List Value) (i : Nat) :
    seqPairTypeOK (r :: n :: rest) (i + 1) = seqPairTypeOK rest i := by
  have e1 : 2 * (i + 1) = 2 * i + 1 + 1 := by ring
  have e2 : 2 * (i + 1) + 1 = 2 * i + 1 + 1 + 1 := by ring
  simp only [seqPairTypeOK, e1, e2, List.getD_cons_succ]

theorem seqPairOK_cons2 (rlen nlen : Nat) (r n : Value) (rest : List Value)
    (i : Nat) :
    seqPairOK rlen nlen (r :: n :: rest) (i + 1) = seqPairOK rlen nlen rest i := by
  have e1 : 2 * (i + 1) = 2 * i + 1 + 1 := by ring
  have e2 : 2 * (i + 1) + 1 = 2 * i + 1 + 1 + 1 := by ring
  simp only [seqPairOK, e1, e2, List.getD_cons_succ]

theorem seqPair_ints {rlen nlen : Nat} {r n : Value} {rest : List Value}
    (h0 : seqPairOK rlen nlen (r :: n :: rest) 0 = true) :
    ∃ rv nv, r = .int rv ∧ n = .int nv := by
  cases r <;> cases n <;>
    simp only [seqPairOK, List.getD_cons_zero, List.getD_cons_succ,
      Nat.mul_zero, Nat.zero_add] at h0 <;>
    first
      | exact Bool.noConfusion h0
      | exact ⟨_, _, rfl, rfl⟩

theorem seqPairOK_zero_iff {rlen nlen : Nat} {rv nv : Int}
    {rest : List Value} :
    seqPairOK rlen nlen (.int rv :: .int nv :: rest) 0 = true ↔
      rv ≠ 0 ∧ rv.natAbs ≤ rlen ∧ 0 ≤ nv ∧ nv < (nlen : Int) := by
  simp only [seqPairOK, List.getD_cons_zero, List.getD_cons_succ,
    Nat.mul_zero, Nat.zero_add, Bool.and_eq_true, decide_eq_true_eq]
  tauto

/-- A fully valid leading pair passes the scan's first iteration. -/
theorem checkSeq_cons_ok {rlen nlen : Nat} {rv nv : Int} {rest : List Value}
    (h0 : seqPairOK rlen nlen (.int rv :: .int nv :: rest) 0 = true) :
    checkSeq rlen nlen (.int rv :: .int nv :: rest) = checkSeq rlen nlen rest := by
  obtain ⟨h1, h2, h3, h4⟩ := seqPairOK_zero_iff.mp h0
  have hc1 : (rv == 0 || (rlen : Int) < rv || (rlen : Int) < -rv) = false := by
    simp only [Bool.or_eq_false_iff, beq_eq_false_iff_ne, ne_eq,
      decide_eq_false_iff_not, not_lt]
    omega
  have hc2 : (nv < 0 || (nlen : Int) ≤ nv) = false := by
    simp only [Bool.or_eq_false_iff, decide_eq_false_iff_not, not_lt, not_le]
    omega
  rw [checkSeq, hc1, hc2]
  simp

/-- If every pair of the (even-length) sequence is valid, the scan accepts. -/
theorem checkSeq_none (rlen nlen : Nat) :
    ∀ seq : List Value, seq.length % 2 = 0 →
      (∀ i, 2 * i + 1 < seq.length → seqPairOK rlen nlen seq i = true) →
      checkSeq rlen nlen seq = none
  | [], _, _ => rfl
  | [_], h, _ => by simp at h
  | r :: n :: rest, h, hp => by
      have h0 := hp 0 (by simp only [List.length_cons]; omega)
      obtain ⟨rv, nv, hr, hn⟩ := seqPair_ints h0
      subst hr hn
      rw [checkSeq_cons_ok h0]
      exact checkSeq_none rlen nlen rest
        (by simp only [List.length_cons] at h; omega)
        (fun i hi => by
          have := hp (i + 1)
            (by simp only [List.length_cons]; omega)
          rwa [seqPairOK_cons2] at this)
termination_by seq => seq.length

/-- If every pair before `i` is valid and pair `i` has a non-Int element,
the scan stops with `InvalidPathSequenceIdxType`. -/
theorem checkSeq_idxType (rlen nlen : Nat) :
    ∀ (seq : List Value) (i : Nat),
      (∀ j, j < i → seqPairOK rlen nlen seq j = true) →
      2 * i + 1 < seq.length →
      seqPairTypeOK seq i = false →
      checkSeq rlen nlen seq = some .invalidPathSequenceIdxType
  | [], i, _, hlen, _ => by simp at hlen
  | [_], i, _, hlen, _ => by
      simp only [List.length_cons, List.length_nil] at hlen
      omega
  | r :: n :: rest, 0, _, _, hbad => by
      cases r <;> cases n <;> simp only [seqPairTypeOK, List.getD_cons_zero,
        List.getD_cons_succ, Nat.mul_zero, Nat.zero_add] at hbad <;>
        first
          | exact Bool.noConfusion hbad
          | with_unfolding_all rfl
  | r :: n :: rest, i + 1, hp, hlen, hbad => by
      have h0 := hp 0 (by omega)
      obtain ⟨rv, nv, hr, hn⟩ := seqPair_ints h0
      subst hr hn
      rw [checkSeq_cons_ok h0]
      refine checkSeq_idxType rlen nlen rest i
        (fun j hj => by
          have := hp (j + 1) (by omega)
          rwa [seqPairOK_cons2] at this)
        (by simp only [List.length_cons] at hlen; omega)
        (by rwa [seqPairTypeOK_cons2] at hbad)

/-- If every pair before `i` is valid and pair `i` is Int-typed but violates
an index range, the scan stops with `InvalidPathSequenceIdxRange`. -/
theorem checkSeq_idxRange (rlen nlen : Nat) :
    ∀ (seq : List Value) (i : Nat),
      (∀ j, j < i → seqPairOK rlen nlen seq j = true) →
      2 * i + 1 < seq.length →
      seqPairTypeOK seq i = true →
      seqPairOK rlen nlen seq i = false →
      checkSeq rlen nlen seq = some .invalidPathSequenceIdxRange
  | [], i, _, hlen, _, _ => by simp at hlen
  | [_], i, _, hlen, _, _ => by
      simp only [List.length_cons, List.length_nil] at hlen
      omega
  | r :: n :: rest, 0, _, _, hty, hbad => by
      obtain ⟨rv, nv, hr, hn⟩ : ∃ rv nv, r = .int rv ∧ n = .int nv := by
        cases r <;> cases n <;> simp only [seqPairTypeOK,
          List.getD_cons_zero, List.getD_cons_succ, Nat.mul_zero,
          Nat.zero_add] at hty <;>
          first
            | exact Bool.noConfusion hty
            | exact ⟨_, _, rfl, rfl⟩
      subst hr hn
      have hnot : ¬(rv ≠ 0 ∧ rv.natAbs ≤ rlen ∧ 0 ≤ nv ∧ nv < (nlen : Int)) :=
        fun hc =>
          absurd ((@seqPairOK_zero_iff rlen nlen rv nv rest).mpr hc)
            (by simp [hbad])
      rw [checkSeq]
      by_cases hc1 : (rv == 0 || (rlen : Int) < rv || (rlen : Int) < -rv) = true
      · rw [hc1]
        simp
      · have hf1 : (rv == 0 || (rlen : Int) < rv || (rlen : Int) < -rv) = false :=
          Bool.eq_false_iff.mpr hc1
        have hrv : ¬rv = 0 ∧ rv ≤ (rlen : Int) ∧ -rv ≤ (rlen : Int) := by
          simp only [Bool.or_eq_false_iff, beq_eq_false_iff_ne, ne_eq,
            decide_eq_false_iff_not, not_lt] at hf1
          tauto
        have hc2 : (nv < 0 || (nlen : Int) ≤ nv) = true := by
          simp only [Bool.or_eq_true, decide_eq_true_eq]
          omega
        rw [hf1, hc2]
        simp
  | r :: n :: rest, i + 1, hp, hlen, hty, hbad => by
      have h0 := hp 0 (by omega)
      obtain ⟨rv, nv, hr, hn⟩ := seqPair_ints h0
      subst hr hn
      rw [checkSeq_cons_ok h0]
      refine checkSeq_idxRange rlen nlen rest i
        (fun j hj => by
          have := hp (j + 1) (by omega)
          rwa [seqPairOK_cons2] at this)
        (by simp only [List.length_cons] at hlen; omega)
        (by rwa [seqPairTypeOK_cons2] at hty)
        (by rwa [seqPairOK_cons2] at hbad)
termination_by seq _ => seq.length

/-- C5: given all-Node nodes and all-Relationship relationships,
`neo4j_path` fails with `InvalidPathSequenceLength` on an odd-length
sequence; succeeds when every pair is valid (both elements Int, the
relationship index nonzero with magnitude at most the relationship count,
the node index within the node count); fails with
`InvalidPathSequenceIdxType` at the first pair with a non-Int element; and
fails with `InvalidPathSequenceIdxRange` at the first Int-typed pair whose
relationship index is 0 or exceeds the relationship count in magnitude, or
whose node index is negative or not below the node count. -/
theorem c5_path_validation (nodes rels seq : List Value)
    (hn : nodes.all (fun x => neo4j_type x == Ty.node) = true)
    (hr : rels.all (fun x => neo4j_type x == Ty.relationship) = true) :
    (seq.length % 2 = 1 →
        neo4j_path (.list nodes) (.list rels) (.list seq)
          = .error .invalidPathSequenceLength)
  ∧ (seq.length % 2 = 0 →
        (∀ i, 2 * i + 1 < seq.length →
            seqPairOK rels.length nodes.length seq i = true) →
        neo4j_path (.list nodes) (.list rels) (.list seq)
          = .ok (mkPath nodes rels seq))
  ∧ (∀ i, seq.length % 2 = 0 → 2 * i + 1 < seq.length →
        (∀ j, j < i → seqPairOK rels.length nodes.length seq j = true) →
        seqPairTypeOK seq i = false →
        neo4j_path (.list nodes) (.list rels) (.list seq)
          = .error .invalidPathSequenceIdxType)
  ∧ (∀ i, seq.length % 2 = 0 → 2 * i + 1 < seq.length →
        (∀ j, j < i → seqPairOK rels.length nodes.length seq j = true) →
        seqPairTypeOK seq i = true →
        seqPairOK rels.length nodes.length seq i = false →
        neo4j_path (.list nodes) (.list rels) (.list seq)
          = .error .invalidPathSequenceIdxRange) := by
  refine ⟨?_, ?_, ?_, ?_⟩
  · intro hodd
    simp [neo4j_path, hn, hr, hodd]
  · intro heven hall
    simp [neo4j_path, hn, hr, heven, mkPath,
      checkSeq_none rels.length nodes.length seq heven hall]
  · intro i heven hlen hpre hbad
    simp [neo4j_path, hn, hr, heven,
      checkSeq_idxType rels.length nodes.length seq i hpre hlen hbad]
  · intro i heven hlen hpre hty hbad
    simp [neo4j_path, hn, hr, heven,
      checkSeq_idxRange rels.length nodes.length seq i hpre hlen hty hbad]

/-- Witness for C5: an odd-length sequence is rejected with
`InvalidPathSequenceLength`. -/
theorem c5_witness :
    neo4j_path (.list [sampleNode 0]) (.list []) (.list [.int 1])
      = .error .invalidPathSequenceLength :=
  (c5_path_validation [sampleNode 0] [] [.int 1]
    (by decide) (by decide)).1 (by decide)

/-- Is the value a String? (statement vocabulary for the C3/C4 amendments) -/
def isStringV : Value → Bool
  | .string _ => true
  | _ => false

/-- Every map entry key is a String value. -/
def keysStrings (es : List (Value × Value)) : Bool :=
  es.all fun e => isStringV e.1

/-- No two (distinct positions of) map entry keys compare equal. -/
def distinctKeys : List (Value × Value) → Bool
  | [] => true
  | (k, _) :: es => (es.all fun f => !neo4j_eq k f.1) && distinctKeys es

mutual

/-- Every Map payload inside the value has String keys, pairwise unequal
(the condition under which the C3/C4 amendments hold). -/
def wellKeyed : Value → Bool
  | .list xs => wkList xs
  | .map es => keysStrings es && distinctKeys es && wkEntries es
  | .strukt _ _ fs => wkList fs
  | _ => true
termination_by v => sizeOf v

def wkList : List Value → Bool
  | [] => true
  | x :: xs => wellKeyed x && wkList xs
termination_by xs => sizeOf xs

def wkEntries : List (Value × Value) → Bool
  | [] => true
  | (k, w) :: es => wellKeyed k && wellKeyed w && wkEntries es
termination_by es => sizeOf es

end

mutual

/-- No Float payload inside the value is a NaN. -/
def nanFree : Value → Bool
  | .float bits => !f64_isNaN bits
  | .list xs => nfList xs
  | .map es => nfEntries es
  | .strukt _ _ fs => nfList fs
  | _ => true
termination_by v => sizeOf v

def nfList : List Value → Bool
  | [] => true
  | x :: xs => nanFree x && nfList xs
termination_by xs => sizeOf xs

def nfEntries : List (Value × Value) → Bool
  | [] => true
  | (k, w) :: es => nanFree k && nanFree w && nfEntries es
termination_by es => sizeOf es

end

/-- The prefix of a byte list that `strncmp` actually inspects: everything
up to and including the first NUL byte. -/
def keyBytes : List Nat → List Nat
  | [] => []
  | x :: xs => x :: (if x == 0 then [] else keyBytes xs)

/-- The canonical form of a String key under `string_eq`: its stored length
together with its `strncmp`-relevant prefix (`none` on non-String values). -/
def keyNorm : Value → Option (Nat × List Nat)
  | .string s => some (s.length, keyBytes s)
  | _ => none

theorem strncmp0_refl : ∀ s : List Nat, strncmp0 s s = true
  | [] => rfl
  | x :: xs => by
      rw [strncmp0]
      simp only [bne_self_eq_false, Bool.false_eq_true, if_false]
      by_cases h : x = 0
      · simp [h]
      · simp only [beq_eq_false_iff_ne.mpr h, Bool.false_eq_true, if_false]
        exact strncmp0_refl xs

theorem strncmp0_iff_keyBytes :
    ∀ {s t : List Nat}, s.length = t.length →
      (strncmp0 s t = true ↔ keyBytes s = keyBytes t)
  | [], [], _ => by simp [strncmp0, keyBytes]
  | [], _ :: _, h => by simp at h
  | _ :: _, [], h => by simp at h
  | x :: xs, y :: ys, h => by
      rw [strncmp0, keyBytes, keyBytes]
      by_cases hxy : x = y
      · subst hxy
        simp only [bne_self_eq_false, Bool.false_eq_true, if_false,
          List.cons.injEq, true_and]
        by_cases hx : x = 0
        · simp [hx]
        · simp only [beq_eq_false_iff_ne.mpr hx, Bool.false_eq_true, if_false]
          exact strncmp0_iff_keyBytes (by simpa using h)
      · simp only [bne_iff_ne, ne_eq, hxy, not_false_eq_true, if_true,
          Bool.false_eq_true, false_iff, List.cons.injEq]
        tauto

theorem eq_string_iff {s t : List Nat} :
    neo4j_eq (.string s) (.string t) = true ↔
      s.length = t.length ∧ keyBytes s = keyBytes t := by
  simp only [neo4j_eq, string_eq, Bool.and_eq_true, beq_iff_eq]
  constructor
  · rintro ⟨h1, h2⟩
    exact ⟨h1, (strncmp0_iff_keyBytes h1).mp h2⟩
  · rintro ⟨h1, h2⟩
    exact ⟨h1, (strncmp0_iff_keyBytes h1).mpr h2⟩

theorem key_eq_iff_norm {k k2 : Value} (hk : isStringV k = true)
    (hk2 : isStringV k2 = true) :
    (neo4j_eq k k2 = true ↔ keyNorm k = keyNorm k2) := by
  cases k <;> simp only [isStringV] at hk <;> try exact Bool.noConfusion hk
  cases k2 <;> simp only [isStringV] at hk2 <;> try exact Bool.noConfusion hk2
  rw [eq_string_iff]
  simp [keyNorm]

theorem wkList_mem : ∀ {xs : List Value}, wkList xs = true →
    ∀ x ∈ xs, wellKeyed x = true
  | [], _, x, hx => by simp at hx
  | y :: ys, h, x, hx => by
      simp only [wkList, Bool.and_eq_true] at h
      rcases List.mem_cons.mp hx with rfl | hx'
      · exact h.1
      · exact wkList_mem h.2 x hx'

theorem wkEntries_mem : ∀ {es : List (Value × Value)}, wkEntries es = true →
    ∀ e ∈ es, wellKeyed e.1 = true ∧ wellKeyed e.2 = true
  | [], _, e, he => by simp at he
  | (k, w) :: es, h, e, he => by
      simp only [wkEntries, Bool.and_eq_true] at h
      rcases List.mem_cons.mp he with rfl | he'
      · exact ⟨h.1.1, h.1.2⟩
      · exact wkEntries_mem h.2 e he'

theorem nfList_mem : ∀ {xs : List Value}, nfList xs = true →
    ∀ x ∈ xs, nanFree x = true
  | [], _, x, hx => by simp at hx
  | y :: ys, h, x, hx => by
      simp only [nfList, Bool.and_eq_true] at h
      rcases List.mem_cons.mp hx with rfl | hx'
      · exact h.1
      · exact nfList_mem h.2 x hx'

theorem nfEntries_mem : ∀ {es : List (Value × Value)}, nfEntries es = true →
    ∀ e ∈ es, nanFree e.1 = true ∧ nanFree e.2 = true
  | [], _, e, he => by simp at he
  | (k, w) :: es, h, e, he => by
      simp only [nfEntries, Bool.and_eq_true] at h
      rcases List.mem_cons.mp he with rfl | he'
      · exact ⟨h.1.1, h.1.2⟩
      · exact nfEntries_mem h.2 e he'

theorem eqEntries_iff_all : ∀ (es fs : List (Value × Value)),
    (eqEntries es fs = true ↔ ∀ e ∈ es, eqFind e fs = true)
  | [], fs => by simp
  | e :: es, fs => by
      simp only [eqEntries, Bool.and_eq_true, List.mem_cons]
      rw [eqEntries_iff_all es fs]
      constructor
      · rintro ⟨h1, h2⟩ f (rfl | hf)
        · exact h1
        · exact h2 f hf
      · intro h
        exact ⟨h e (Or.inl rfl), fun f hf => h f (Or.inr hf)⟩

theorem eqFind_iff : ∀ {e : Value × Value} {fs : List (Value × Value)},
    isStringV e.1 = true →
    (∀ f ∈ fs, isStringV f.1 = true) →
    (fs.map fun f => keyNorm f.1).Nodup →
    (eqFind e fs = true ↔
      ∃ f ∈ fs, keyNorm e.1 = keyNorm f.1 ∧ neo4j_eq e.2 f.2 = true)
  | e, [], _, _, _ => by simp
  | (k, w), (k2, w2) :: fs, hk, hkF, hnd => by
      have hk2 : isStringV k2 = true := hkF (k2, w2) (by simp)
      simp only [List.map_cons, List.nodup_cons] at hnd
      simp only [eqFind]
      by_cases hkey : neo4j_eq k k2 = true
      · rw [if_pos hkey]
        have hnorm : keyNorm k = keyNorm k2 := (key_eq_iff_norm hk hk2).mp hkey
        constructor
        · intro hw
          exact ⟨(k2, w2), by simp, hnorm, hw⟩
        · rintro ⟨f, hf, hn, hw⟩
          rcases List.mem_cons.mp hf with rfl | hf'
          · exact hw
          · exact absurd (List.mem_map.mpr ⟨f, hf', by rw [← hn, hnorm]⟩) hnd.1
      · rw [if_neg hkey]
        have hnorm : keyNorm k ≠ keyNorm k2 := fun hc =>
          hkey ((key_eq_iff_norm hk hk2).mpr hc)
        rw [eqFind_iff hk (fun f hf => hkF f (List.mem_cons_of_mem _ hf)) hnd.2]
        constructor
        · rintro ⟨f, hf, hn, hw⟩
          exact ⟨f, List.mem_cons_of_mem _ hf, hn, hw⟩
        · rintro ⟨f, hf, hn, hw⟩
          rcases List.mem_cons.mp hf with rfl | hf'
          · exact absurd hn hnorm
          · exact ⟨f, hf', hn, hw⟩

theorem distinctKeys_nodup : ∀ {es : List (Value × Value)},
    (∀ e ∈ es, isStringV e.1 = true) → distinctKeys es = true →
    (es.map fun e => keyNorm e.1).Nodup
  | [], _, _ => by simp
  | (k, w) :: es, hks, hd => by
      simp only [distinctKeys, Bool.and_eq_true, List.all_eq_true] at hd
      simp only [List.map_cons, List.nodup_cons]
      refine ⟨?_, distinctKeys_nodup
        (fun e he => hks e (List.mem_cons_of_mem _ he)) hd.2⟩
      intro hmem
      rcases List.mem_map.mp hmem with ⟨f, hf, hnf⟩
      have hkstr : isStringV k = true := hks (k, w) (by simp)
      have hfstr : isStringV f.1 = true := hks f (List.mem_cons_of_mem _ hf)
      have heq : neo4j_eq k f.1 = true :=
        (key_eq_iff_norm hkstr hfstr).mpr hnf.symm
      have hall := hd.1 f hf
      simp [heq] at hall

theorem norms_mem_swap {es fs : List (Value × Value)}
    (hlen : es.length = fs.length)
    (hndE : (es.map fun e => keyNorm e.1).Nodup)
    (hndF : (fs.map fun f => keyNorm f.1).Nodup)
    (hsub : ∀ e ∈ es, keyNorm e.1 ∈ fs.map fun f => keyNorm f.1) :
    ∀ f ∈ fs, keyNorm f.1 ∈ es.map fun e => keyNorm e.1 := by
  intro f hf
  have hsubAB : (es.map fun e => keyNorm e.1) ⊆ fs.map fun f => keyNorm f.1 := by
    intro x hx
    rcases List.mem_map.mp hx with ⟨e, he, rfl⟩
    exact hsub e he
  have hcardA := List.toFinset_card_of_nodup hndE
  have hcardB := List.toFinset_card_of_nodup hndF
  have hfinsub : (es.map fun e => keyNorm e.1).toFinset ⊆
      (fs.map fun f => keyNorm f.1).toFinset := by
    intro x hx
    rw [List.mem_toFinset] at hx ⊢
    exact hsubAB hx
  have hfeq : (es.map fun e => keyNorm e.1).toFinset =
      (fs.map fun f => keyNorm f.1).toFinset := by
    refine Finset.eq_of_subset_of_card_le hfinsub ?_
    rw [hcardA, hcardB]
    simp [hlen]
  have hmemB : keyNorm f.1 ∈ fs.map fun f => keyNorm f.1 :=
    List.mem_map.mpr ⟨f, hf, rfl⟩
  rw [← List.mem_toFinset, hfeq, List.mem_toFinset]
  exact hmemB

/-- The combinatorial core of map-equality symmetry: with equal entry
counts, String keys and duplicate-free keys on both sides, and value
equality symmetric entrywise, `map_eq` in one direction gives the other. -/
theorem eqEntries_symm_step {es fs : List (Value × Value)}
    (hlen : es.length = fs.length)
    (hksE : ∀ e ∈ es, isStringV e.1 = true)
    (hksF : ∀ f ∈ fs, isStringV f.1 = true)
    (hndE : (es.map fun e => keyNorm e.1).Nodup)
    (hndF : (fs.map fun f => keyNorm f.1).Nodup)
    (hsym : ∀ e ∈ es, ∀ f ∈ fs,
        neo4j_eq e.2 f.2 = true → neo4j_eq f.2 e.2 = true)
    (h : eqEntries es fs = true) : eqEntries fs es = true := by
  rw [eqEntries_iff_all] at h ⊢
  have Hmatch : ∀ e ∈ es, ∃ f ∈ fs,
      keyNorm e.1 = keyNorm f.1 ∧ neo4j_eq e.2 f.2 = true := by
    intro e he
    exact (eqFind_iff (hksE e he) hksF hndF).mp (h e he)
  have hsub : ∀ e ∈ es, keyNorm e.1 ∈ fs.map fun f => keyNorm f.1 := by
    intro e he
    rcases Hmatch e he with ⟨f, hf, hn, _⟩
    exact List.mem_map.mpr ⟨f, hf, hn.symm⟩
  have hswap := norms_mem_swap hlen hndE hndF hsub
  intro f hf
  rw [eqFind_iff (hksF f hf) hksE hndE]
  rcases List.mem_map.mp (hswap f hf) with ⟨e, he, hnf⟩
  rcases Hmatch e he with ⟨f', hf', hn', hw'⟩
  have hff' : f' = f := by
    apply List.inj_on_of_nodup_map hndF hf' hf
    rw [← hn']
    exact hnf
  rw [hff'] at hw'
  exact ⟨e, he, hnf.symm, hsym e he f hf hw'⟩

theorem eqList_symm_of : ∀ {xs ys : List Value},
    (∀ x ∈ xs, ∀ y ∈ ys, neo4j_eq x y = true → neo4j_eq y x = true) →
    eqList xs ys = true → eqList ys xs = true
  | [], ys, _, _ => by cases ys <;> simp
  | _ :: _, [], _, _ => by simp
  | x :: xs, y :: ys, H, h => by
      simp only [eqList, Bool.and_eq_true] at h ⊢
      exact ⟨H x (by simp) y (by simp) h.1,
        eqList_symm_of
          (fun a ha b hb =>
            H a (List.mem_cons_of_mem _ ha) b (List.mem_cons_of_mem _ hb))
          h.2⟩

theorem eqList_refl_of : ∀ {xs : List Value},
    (∀ x ∈ xs, neo4j_eq x x = true) → eqList xs xs = true
  | [], _ => by simp
  | x :: xs, H => by
      simp only [eqList, Bool.and_eq_true]
      exact ⟨H x (by simp),
        eqList_refl_of (fun a ha => H a (List.mem_cons_of_mem _ ha))⟩

theorem beq_swap {α : Type} [BEq α] [LawfulBEq α] (a b : α) :
    (a == b) = (b == a) := by
  by_cases h : a = b
  · subst h
    rfl
  · rw [beq_eq_false_iff_ne.mpr h, beq_eq_false_iff_ne.mpr (Ne.symm h)]

theorem float_eq_comm (a b : Nat) : float_eq a b = float_eq b a := by
  simp only [float_eq, beq_swap a b]
  cases f64_isNaN a <;> cases f64_isNaN b <;>
    cases f64_isZero a <;> cases f64_isZero b <;> simp

theorem strncmp0_comm : ∀ s t : List Nat, strncmp0 s t = strncmp0 t s
  | [], [] => rfl
  | [], _ :: _ => rfl
  | _ :: _, [] => rfl
  | x :: xs, y :: ys => by
      rw [strncmp0, strncmp0]
      by_cases hxy : x = y
      · subst hxy
        by_cases hx : x = 0
        · simp [hx]
        · simp only [bne_self_eq_false, Bool.false_eq_true, if_false,
            beq_eq_false_iff_ne.mpr hx, Bool.false_eq_true]
          exact strncmp0_comm xs ys
      · simp [bne_iff_ne.mpr hxy, bne_iff_ne.mpr (Ne.symm hxy)]

theorem string_eq_comm (s t : List Nat) : string_eq s t = string_eq t s := by
  simp only [string_eq, beq_swap s.length t.length, strncmp0_comm s t]

theorem snd_sizeOf_lt {e : Value × Value} {es : List (Value × Value)}
    (he : e ∈ es) : sizeOf e.2 < sizeOf es := by
  have h1 := List.sizeOf_lt_of_mem he
  obtain ⟨k, w⟩ := e
  simp only [Prod.mk.sizeOf_spec] at h1
  show sizeOf w < sizeOf es
  omega

/-- Strong-induction core for C4: on well-keyed values, equality in one
direction gives the other. -/
theorem neo4j_eq_symm_to (N : Nat) : ∀ a b : Value, sizeOf a + sizeOf b ≤ N →
    wellKeyed a = true → wellKeyed b = true →
    neo4j_eq a b = true → neo4j_eq b a = true := by
  induction N using Nat.strong_induction_on with
  | _ N IH =>
    intro a b hsz ha hb hab
    cases a <;> cases b <;>
      simp only [neo4j_eq] at hab <;>
      try exact Bool.noConfusion hab
    case null.null => simp
    case boolean.boolean x y =>
      simp only [neo4j_eq]
      rw [beq_swap]
      exact hab
    case int.int x y =>
      simp only [neo4j_eq]
      rw [beq_swap]
      exact hab
    case identity.identity x y =>
      simp only [neo4j_eq]
      rw [beq_swap]
      exact hab
    case float.float x y =>
      simp only [neo4j_eq]
      rw [float_eq_comm]
      exact hab
    case string.string s t =>
      simp only [neo4j_eq]
      rw [string_eq_comm]
      exact hab
    case list.list xs ys =>
      simp only [Bool.and_eq_true] at hab
      obtain ⟨hlen, hl⟩ := hab
      simp only [wellKeyed] at ha hb
      simp only [neo4j_eq, Bool.and_eq_true]
      refine ⟨by rw [beq_swap]; exact hlen, ?_⟩
      refine eqList_symm_of ?_ hl
      intro x hx y hy hxy
      have sx := List.sizeOf_lt_of_mem hx
      have sy := List.sizeOf_lt_of_mem hy
      refine IH (sizeOf x + sizeOf y) ?_ x y le_rfl
        (wkList_mem ha x hx) (wkList_mem hb y hy) hxy
      simp only [Value.list.sizeOf_spec] at hsz
      omega
    case map.map es fs =>
      simp only [Bool.and_eq_true] at hab
      obtain ⟨hlen, hm⟩ := hab
      simp only [wellKeyed, Bool.and_eq_true] at ha hb
      obtain ⟨⟨hksA, hdA⟩, hwkA⟩ := ha
      obtain ⟨⟨hksB, hdB⟩, hwkB⟩ := hb
      simp only [keysStrings, List.all_eq_true] at hksA hksB
      have hndA := distinctKeys_nodup hksA hdA
      have hndB := distinctKeys_nodup hksB hdB
      simp only [neo4j_eq, Bool.and_eq_true]
      refine ⟨by rw [beq_swap]; exact hlen, ?_⟩
      refine eqEntries_symm_step (eq_of_beq hlen) hksA hksB hndA hndB ?_ hm
      intro e he f hf hef
      have s1 := snd_sizeOf_lt he
      have s2 := snd_sizeOf_lt hf
      refine IH (sizeOf e.2 + sizeOf f.2) ?_ e.2 f.2 le_rfl
        (wkEntries_mem hwkA e he).2 (wkEntries_mem hwkB f hf).2 hef
      simp only [Value.map.sizeOf_spec] at hsz
      omega
    case strukt.strukt k1 s1 f1 k2 s2 f2 =>
      simp only [Bool.and_eq_true] at hab
      obtain ⟨hk, hs, hlen, hl⟩ := hab
      obtain rfl := eq_of_beq hk
      obtain rfl := eq_of_beq hs
      simp only [wellKeyed] at ha hb
      simp only [neo4j_eq, Bool.and_eq_true]
      refine ⟨by simp, by simp, by rw [beq_swap]; exact hlen, ?_⟩
      refine eqList_symm_of ?_ hl
      intro x hx y hy hxy
      have sx := List.sizeOf_lt_of_mem hx
      have sy := List.sizeOf_lt_of_mem hy
      refine IH (sizeOf x + sizeOf y) ?_ x y le_rfl
        (wkList_mem ha x hx) (wkList_mem hb y hy) hxy
      simp only [Value.strukt.sizeOf_spec] at hsz
      omega

/-- Strong-induction core for C3: on NaN-free, well-keyed values equality is
reflexive. -/
theorem neo4j_eq_refl_to (N : Nat) : ∀ v : Value, sizeOf v ≤ N →
    nanFree v = true → wellKeyed v = true → neo4j_eq v v = true := by
  induction N using Nat.strong_induction_on with
  | _ N IH =>
    intro v hsz hnf hwk
    cases v
    case null => simp
    case boolean b => simp
    case int i => simp
    case identity i => simp
    case float bits =>
      simp only [nanFree] at hnf
      simp only [neo4j_eq, float_eq, hnf]
      simp
    case string s =>
      simp only [neo4j_eq, string_eq, Bool.and_eq_true]
      exact ⟨by simp, strncmp0_refl s⟩
    case list xs =>
      simp only [nanFree] at hnf
      simp only [wellKeyed] at hwk
      simp only [neo4j_eq, Bool.and_eq_true]
      refine ⟨by simp, eqList_refl_of ?_⟩
      intro x hx
      have sx := List.sizeOf_lt_of_mem hx
      refine IH (sizeOf x) ?_ x le_rfl (nfList_mem hnf x hx)
        (wkList_mem hwk x hx)
      simp only [Value.list.sizeOf_spec] at hsz
      omega
    case map es =>
      simp only [nanFree] at hnf
      simp only [wellKeyed, Bool.and_eq_true] at hwk
      obtain ⟨⟨hks, hd⟩, hwk⟩ := hwk
      simp only [keysStrings, List.all_eq_true] at hks
      have hnd := distinctKeys_nodup hks hd
      simp only [neo4j_eq, Bool.and_eq_true]
      refine ⟨by simp, ?_⟩
      rw [eqEntries_iff_all]
      intro e he
      rw [eqFind_iff (hks e he) hks hnd]
      refine ⟨e, he, rfl, ?_⟩
      have se := snd_sizeOf_lt he
      refine IH (sizeOf e.2) ?_ e.2 le_rfl (nfEntries_mem hnf e he).2
        (wkEntries_mem hwk e he).2
      simp only [Value.map.sizeOf_spec] at hsz
      omega
    case strukt k s fs =>
      simp only [nanFree] at hnf
      simp only [wellKeyed] at hwk
      simp only [neo4j_eq, Bool.and_eq_true]
      refine ⟨by simp, by simp, by simp, eqList_refl_of ?_⟩
      intro x hx
      have sx := List.sizeOf_lt_of_mem hx
      refine IH (sizeOf x) ?_ x le_rfl (nfList_mem hnf x hx)
        (wkList_mem hwk x hx)
      simp only [Value.strukt.sizeOf_spec] at hsz
      omega

/-- C3 amended: equality is reflexive on every value that carries no NaN
Float payload and whose Map payloads all have String keys that are pairwise
unequal (duplicate-free); the unrestricted claim fails, see the
counterexample. -/
theorem c3_eq_refl (v : Value) (h1 : nanFree v = true)
    (h2 : wellKeyed v = true) : neo4j_eq v v = true :=
  neo4j_eq_refl_to (sizeOf v) v le_rfl h1 h2

/-- Witness for C3 on a concrete NaN-free, duplicate-free map. -/
theorem c3_witness :
    neo4j_eq (.map [(.string [107], .int 1)])
      (.map [(.string [107], .int 1)]) = true :=
  c3_eq_refl (.map [(.string [107], .int 1)])
    (by simp [nanFree, nfEntries])
    (by simp [wellKeyed, keysStrings, distinctKeys, wkEntries, isStringV])

/-- C4 amended: equality is symmetric on every pair of values whose Map
payloads (on both sides, recursively) have String keys that are pairwise
unequal — in particular on all duplicate-key-free constructed maps; with
duplicate keys the claim fails, see the counterexample. -/
theorem c4_eq_symm (a b : Value) (ha : wellKeyed a = true)
    (hb : wellKeyed b = true) : neo4j_eq a b = neo4j_eq b a := by
  cases hab : neo4j_eq a b with
  | true =>
      exact (neo4j_eq_symm_to (sizeOf a + sizeOf b) a b le_rfl ha hb hab).symm
  | false =>
      cases hba : neo4j_eq b a with
      | false => rfl
      | true =>
          have h := neo4j_eq_symm_to (sizeOf b + sizeOf a) b a le_rfl hb ha hba
          rw [h] at hab
          exact hab.symm

/-- Witness for C4 on two concrete duplicate-free maps. -/
theorem c4_witness :
    neo4j_eq (.map [(.string [107], .int 1)]) (.map [(.string [106], .int 2)])
      = neo4j_eq (.map [(.string [106], .int 2)])
          (.map [(.string [107], .int 1)]) :=
  c4_eq_symm (.map [(.string [107], .int 1)]) (.map [(.string [106], .int 2)])
    (by simp [wellKeyed, keysStrings, distinctKeys, wkEntries, isStringV])
    (by simp [wellKeyed, keysStrings, distinctKeys, wkEntries, isStringV])

end Neo4j
